import Mathlib

/-!
# Exclusive-ownership handle (`template<class T> class Handle`, `src/main.cpp`)

The class has one field, `T *p`, and four callable members: the converting
constructor `Handle(T *pp)`, the destructor `~Handle()`, the move constructor
`Handle(Handle &&h)` and the move assignment `operator=(Handle &&h)`.  The copy
constructor and the copy assignment are declared `= delete`.

Handle objects are identified by a natural number (their identity / address);
instances of `T` are identified by a natural number as well.

Two embeddings are given, because `delete p` first runs the destructor of the
element type `T`:

* `State`, `delete`, `Handle.ctor`, ... : the element type holds no handle, so its
  destructor touches no handle (`Handle<double>`, the instantiation in `main`).  A
  state records the field `p` of every live handle object and the log of every
  deallocation.
* `Nested.Machine`, `Nested.deleteT`, `Nested.ctor`, ... : the element type may
  hold handles as data members (`struct Node { Handle<Node> next; }`), so that
  `delete p` destroys the member handles of the instance before deallocating it.
  `Nested.view_run` shows that the first embedding is the second one restricted to
  element types without member handles.
-/

namespace FirstTry

/-- Value of a `T *`: `none` is `nullptr`, `some x` points at the instance `x`. -/
abbrev Ptr := Option Nat

/-- Program state: the field `p` of each live `Handle` object (`obj h = none`
means that no handle object lives at `h`), and the instances deallocated so far,
in order, with repetitions (a repetition is a double free). -/
structure State where
  obj : Nat → Option Ptr
  released : List Nat

/-- State with no handle object and nothing deallocated. -/
def State.empty : State := ⟨fun _ => none, []⟩

/-- Expression `delete p` for an element type whose destructor touches no handle
(such as `double`): nothing for `nullptr`, otherwise the pointee is deallocated
(recorded in the log).  The general case is `Nested.deleteT`. -/
def delete (p : Ptr) (s : State) : State :=
  match p with
  | none => s
  | some x => { s with released := s.released ++ [x] }

/-- Store `v` into the field `p` of the handle object `h`. -/
def setP (h : Nat) (v : Ptr) (s : State) : State :=
  { s with obj := fun k => if k = h then some v else s.obj k }

/-- End of the lifetime of the handle object `h`. -/
def endLife (h : Nat) (s : State) : State :=
  { s with obj := fun k => if k = h then none else s.obj k }

/-- Constructor `Handle(T *pp) : p{pp} { }` creating the new object `this`. -/
def Handle.ctor (this : Nat) (pp : Ptr) (s : State) : Option State :=
  if (s.obj this).isSome then none
  else some (setP this pp s)

/-- Destructor `~Handle() { delete p; }` of the live object `this`. -/
def Handle.dtor (this : Nat) (s : State) : Option State := do
  let p ← s.obj this
  let s1 := delete p s
  some (endLife this s1)

/-- Move constructor `Handle(Handle &&h) : p{h.p} { h.p = nullptr; }` creating the
new object `this` from the live object `h`. -/
def Handle.moveCtor (this h : Nat) (s : State) : Option State :=
  if (s.obj this).isSome then none
  else do
    let hp ← s.obj h
    let s1 := setP this hp s
    some (setP h none s1)

/-- Move assignment
`operator=(Handle &&h) { delete p; p = h.p; h.p = nullptr; return *this; }`
on the live objects `this` and `h`, which may be the same object. -/
def Handle.moveAssign (this h : Nat) (s : State) : Option State := do
  let p ← s.obj this
  let s1 := delete p s
  let hp ← s1.obj h
  let s2 := setP this hp s1
  some (setP h none s2)

/-- Callable members of `Handle`; the deleted copy members have no entry. -/
inductive Op where
  | construct (h : Nat) (pp : Ptr)
  | moveConstruct (b a : Nat)
  | moveAssign (b a : Nat)
  | destruct (h : Nat)
deriving DecidableEq

/-- One operation. -/
def step (op : Op) (s : State) : Option State :=
  match op with
  | .construct h pp => Handle.ctor h pp s
  | .moveConstruct b a => Handle.moveCtor b a s
  | .moveAssign b a => Handle.moveAssign b a s
  | .destruct h => Handle.dtor h s

/-- Sequence of operations, left to right; `none` when an operation is applied
to an object that is not live (or a constructor to one that is). -/
def run (ops : List Op) (s : State) : Option State :=
  match ops with
  | [] => some s
  | op :: rest => (step op s).bind (run rest)

/-- Handle `h` is live and owns instance `x`. -/
def owns (s : State) (h x : Nat) : Prop := s.obj h = some (some x)

/-- Handle `h` is live and owns nothing. -/
def isEmpty (s : State) (h : Nat) : Prop := s.obj h = some none

/-- No two live handles own the same instance. -/
def Exclusive (s : State) : Prop :=
  ∀ h1 h2 x, owns s h1 x → owns s h2 x → h1 = h2

/-- Non-null instances handed to `Handle(T *pp)` in a sequence of operations. -/
def constructed (ops : List Op) : List Nat :=
  match ops with
  | [] => []
  | .construct _ (some x) :: rest => x :: constructed rest
  | _ :: rest => constructed rest

/-- Handle objects an operation touches. -/
def Op.handles (op : Op) : List Nat :=
  match op with
  | .construct h _ => [h]
  | .moveConstruct b a => [b, a]
  | .moveAssign b a => [b, a]
  | .destruct h => [h]

/-- Construction of one handle per pair `(handle, instance)`, in order. -/
def constructAll (hxs : List (Nat × Nat)) : List Op :=
  hxs.map (fun hx => Op.construct hx.1 (some hx.2))

/-- Destruction of the listed handles, in order. -/
def destructAll (hs : List Nat) : List Op :=
  hs.map Op.destruct

/-- Sample state: handle 0 owns instance 4, handle 1 owns instance 5, handle 2 is
empty, no other handle is live, and instance 9 was deallocated earlier. -/
def demo : State :=
  ⟨fun k => if k = 0 then some (some 4) else if k = 1 then some (some 5)
    else if k = 2 then some none else none, [9]⟩

/-- Ownership discipline of a state relative to the list `cs` of instances handed
to the constructor so far: the log has no repetition and holds only such instances;
an owned instance is one of them and is not in the log; no instance has two owners;
and each of them is either in the log or owned. -/
structure Disciplined (s : State) (cs : List Nat) : Prop where
  nodup : s.released.Nodup
  released_sub : ∀ x ∈ s.released, x ∈ cs
  owned_sub : ∀ h x, owns s h x → x ∈ cs ∧ x ∉ s.released
  excl : Exclusive s
  accounted : ∀ x ∈ cs, x ∈ s.released ∨ ∃ h, owns s h x

/-- Sample sequence: two constructions on different instances, a self
move assignment, a move assignment, a move construction and three destructions. -/
def demoOps : List Op :=
  [.construct 0 (some 7), .construct 1 (some 8), .moveAssign 0 0, .moveAssign 0 1,
   .moveConstruct 2 0, .destruct 0, .destruct 1, .destruct 2]

/-- State reached by `demoOps` from the empty state. -/
def demoFinal : State := (run demoOps State.empty).getD State.empty

/-- Sample sequence: two constructions, a move construction and a move assignment. -/
def demoOps2 : List Op :=
  [.construct 0 (some 7), .construct 1 none, .moveConstruct 2 0, .moveAssign 1 2]

/-- State reached by `demoOps2` from the empty state. -/
def demoMid : State := (run demoOps2 State.empty).getD State.empty

/-! ## Element types that hold handles -/

namespace Nested

/-- Machine state for an element type that may hold handles: the stored value of
the field `p` at every handle address (the storage keeps its last value after the
destructor ran), which handle objects are within their lifetime, and the instances
deallocated so far, in order, with repetitions. -/
structure Machine where
  cell : Nat → Ptr
  live : Nat → Bool
  released : List Nat

/-- Machine with no handle object and nothing deallocated. -/
def Machine.empty : Machine := ⟨fun _ => none, fun _ => false, []⟩

/-- Store `v` into the field `p` at handle address `h`. -/
def store (h : Nat) (v : Ptr) (m : Machine) : Machine :=
  { m with cell := fun k => if k = h then v else m.cell k }

/-- Begin (`true`) or end (`false`) the lifetime of the handle object `h`. -/
def setLive (h : Nat) (b : Bool) (m : Machine) : Machine :=
  { m with live := fun k => if k = h then b else m.live k }

/-- Deallocation of the instance `x`. -/
def free (x : Nat) (m : Machine) : Machine :=
  { m with released := m.released ++ [x] }

/-- Expression `delete p` for an element type whose instance `x` holds the handles
`members x` as data members: nothing for `nullptr`; otherwise the destructor of `x`
runs `~Handle() { delete p; }` on each member handle and ends its lifetime, then
`x` is deallocated.  The first argument bounds the nesting depth of destructor
calls; `none` when it is exceeded. -/
def deleteT (members : Nat → List Nat) : Nat → Ptr → Machine → Option Machine
  | _, none, m => some m
  | 0, some _, _ => none
  | fuel + 1, some x, m =>
    ((members x).foldlM
      (fun acc h => (deleteT members fuel (acc.cell h) acc).map (setLive h false)) m).map
      (free x)

/-- Constructor `Handle(T *pp) : p{pp} { }` creating the new object `this`. -/
def ctor (this : Nat) (pp : Ptr) (m : Machine) : Option Machine :=
  if m.live this then none
  else some (setLive this true (store this pp m))

/-- Destructor `~Handle() { delete p; }` of the live object `this`. -/
def dtor (members : Nat → List Nat) (fuel : Nat) (this : Nat) (m : Machine) :
    Option Machine :=
  if m.live this then (deleteT members fuel (m.cell this) m).map (setLive this false)
  else none

/-- Move constructor `Handle(Handle &&h) : p{h.p} { h.p = nullptr; }` creating the
new object `this` from the live object `h`. -/
def moveCtor (this h : Nat) (m : Machine) : Option Machine :=
  if m.live this || !m.live h then none
  else
    let m1 := setLive this true (store this (m.cell h) m)
    some (store h none m1)

/-- Move assignment
`operator=(Handle &&h) { delete p; p = h.p; h.p = nullptr; return *this; }`
called on the live objects `this` and `h`.  The read `h.p` and the write
`h.p = nullptr` go to the storage of `h` whether or not `delete p` ended the
lifetime of `h`. -/
def moveAssign (members : Nat → List Nat) (fuel : Nat) (this h : Nat) (m : Machine) :
    Option Machine :=
  if m.live this && m.live h then do
    let m1 ← deleteT members fuel (m.cell this) m
    let m2 := store this (m1.cell h) m1
    some (store h none m2)
  else none

/-- One operation. -/
def step (members : Nat → List Nat) (fuel : Nat) (op : Op) (m : Machine) :
    Option Machine :=
  match op with
  | .construct h pp => ctor h pp m
  | .moveConstruct b a => moveCtor b a m
  | .moveAssign b a => moveAssign members fuel b a m
  | .destruct h => dtor members fuel h m

/-- Sequence of operations, left to right. -/
def run (members : Nat → List Nat) (fuel : Nat) (ops : List Op) (m : Machine) :
    Option Machine :=
  match ops with
  | [] => some m
  | op :: rest => (step members fuel op m).bind (run members fuel rest)

/-- What a machine shows of its handles: the field `p` of the live ones. -/
def view (m : Machine) : State :=
  ⟨fun k => if m.live k then some (m.cell k) else none, m.released⟩

/-- Layout of `struct Node { Handle<Node> next; }` for two nodes: node 1 holds the
handle 11 and node 2 holds the handle 12. -/
def nodeMembers (x : Nat) : List Nat :=
  if x = 1 then [11] else if x = 2 then [12] else []

/-- List of two nodes: `n2->next` (handle 12) is empty, `n1->next` (handle 11)
owns node 2, and the local handle `head` (handle 10) owns node 1. -/
def nodeSetup : List Op :=
  [.construct 12 none, .construct 11 (some 2), .construct 10 (some 1)]

/-- Machine after `nodeSetup`. -/
def nodeStart : Machine := (run nodeMembers 3 nodeSetup Machine.empty).getD Machine.empty

/-- Program `head = std::move(n1->next);` followed by the end of the scope of
`head`, after `nodeSetup`. -/
def nodeOps : List Op :=
  nodeSetup ++ [.moveAssign 10 11, .destruct 10]

end Nested

/-! ## Basic facts about the primitive state updates -/

@[simp] theorem delete_obj (p : Ptr) (s : State) : (delete p s).obj = s.obj := by
  cases p <;> rfl

@[simp] theorem delete_released (p : Ptr) (s : State) :
    (delete p s).released = s.released ++ p.toList := by
  cases p <;> simp [delete]

@[simp] theorem setP_obj (h : Nat) (v : Ptr) (s : State) (k : Nat) :
    (setP h v s).obj k = if k = h then some v else s.obj k := rfl

@[simp] theorem setP_released (h : Nat) (v : Ptr) (s : State) :
    (setP h v s).released = s.released := rfl

@[simp] theorem endLife_obj (h : Nat) (s : State) (k : Nat) :
    (endLife h s).obj k = if k = h then none else s.obj k := rfl

@[simp] theorem endLife_released (h : Nat) (s : State) :
    (endLife h s).released = s.released := rfl

theorem State.ext_iff_fields (s t : State) (ho : ∀ k, s.obj k = t.obj k)
    (hr : s.released = t.released) : s = t := by
  cases s; cases t
  simp only [State.mk.injEq]
  exact ⟨funext ho, hr⟩

theorem ctor_eq (this : Nat) (pp : Ptr) (s : State) (hn : s.obj this = none) :
    Handle.ctor this pp s = some (setP this pp s) := by
  simp [Handle.ctor, hn]

theorem dtor_eq (this : Nat) (p : Ptr) (s : State) (hl : s.obj this = some p) :
    Handle.dtor this s = some (endLife this (delete p s)) := by
  simp [Handle.dtor, hl]

theorem moveCtor_eq (this h : Nat) (hp : Ptr) (s : State) (hn : s.obj this = none)
    (hl : s.obj h = some hp) :
    Handle.moveCtor this h s = some (setP h none (setP this hp s)) := by
  simp [Handle.moveCtor, hn, hl]

theorem moveAssign_eq (this h : Nat) (p hp : Ptr) (s : State) (ht : s.obj this = some p)
    (hl : s.obj h = some hp) :
    Handle.moveAssign this h s = some (setP h none (setP this hp (delete p s))) := by
  simp [Handle.moveAssign, ht, hl]

/-! ## Single operations -/

/-- For an element type without member handles, move assignment `b = move(a)`
between two different live handles succeeds; afterwards `b` holds what `a` held, `a`
is empty, the deallocation log is the old one followed by the instance `b` held
(once, and only if there was one), and every other handle is untouched. -/
theorem moveAssign_distinct_transfers (s : State) (a b : Nat) (pa pb : Ptr)
    (hab : a ≠ b) (ha : s.obj a = some pa) (hb : s.obj b = some pb) :
    ∃ s', Handle.moveAssign b a s = some s' ∧
      s'.obj b = some pa ∧ isEmpty s' a ∧
      s'.released = s.released ++ pb.toList ∧
      (∀ x, pb = some x → (s'.released.count x = s.released.count x + 1)) ∧
      (∀ x, pb ≠ some x → s'.released.count x = s.released.count x) ∧
      ∀ k, k ≠ a → k ≠ b → s'.obj k = s.obj k := by
  refine ⟨_, moveAssign_eq b a pb pa s hb ha, ?_, ?_, ?_, ?_, ?_, ?_⟩
  · simp [hab.symm]
  · simp [isEmpty]
  · simp
  · rintro x rfl
    simp
  · intro x hx
    cases pb with
    | none => simp
    | some y =>
      have : y ≠ x := fun h => hx (by rw [h])
      simp [List.count_cons, this]
  · intro k hka hkb
    simp [hka, hkb]

theorem moveAssign_distinct_transfers_witness :
    ∃ s', Handle.moveAssign 1 0 demo = some s' ∧
      s'.obj 1 = some (some 4) ∧ isEmpty s' 0 ∧
      s'.released = demo.released ++ (some 5 : Ptr).toList ∧
      (∀ x, (some 5 : Ptr) = some x → (s'.released.count x = demo.released.count x + 1)) ∧
      (∀ x, (some 5 : Ptr) ≠ some x → s'.released.count x = demo.released.count x) ∧
      ∀ k, k ≠ 0 → k ≠ 1 → s'.obj k = demo.obj k :=
  moveAssign_distinct_transfers demo 0 1 (some 4) (some 5) (by decide) rfl rfl

/-- C2: move construction of a new handle `b` from a live handle `a` succeeds;
afterwards `b` holds what `a` held, `a` is empty, the deallocation log is unchanged
and every other handle is untouched. -/
theorem moveCtor_transfers (s : State) (a b : Nat) (pa : Ptr)
    (ha : s.obj a = some pa) (hb : s.obj b = none) :
    ∃ s', Handle.moveCtor b a s = some s' ∧
      s'.obj b = some pa ∧ isEmpty s' a ∧
      s'.released = s.released ∧
      ∀ k, k ≠ a → k ≠ b → s'.obj k = s.obj k := by
  have hab : b ≠ a := by
    rintro rfl
    rw [ha] at hb
    exact Option.noConfusion hb
  refine ⟨_, moveCtor_eq b a pa s hb ha, ?_, ?_, ?_, ?_⟩
  · simp [hab]
  · simp [isEmpty]
  · simp
  · intro k hka hkb
    simp [hka, hkb]

theorem moveCtor_transfers_witness :
    ∃ s', Handle.moveCtor 3 0 demo = some s' ∧
      s'.obj 3 = some (some 4) ∧ isEmpty s' 0 ∧
      s'.released = demo.released ∧
      ∀ k, k ≠ 0 → k ≠ 3 → s'.obj k = demo.obj k :=
  moveCtor_transfers demo 0 3 (some 4) rfl rfl

/-- Frame property: an operation leaves every handle it does not touch as it was. -/
theorem step_frame (op : Op) (s s' : State) (h : Nat) (hh : h ∉ op.handles)
    (hs : step op s = some s') : s'.obj h = s.obj h := by
  cases op with
  | construct b pp =>
    simp only [Op.handles, List.mem_singleton] at hh
    simp only [step, Handle.ctor] at hs
    split at hs
    · exact Option.noConfusion hs
    · cases hs
      simp [hh]
  | moveConstruct b a =>
    simp only [Op.handles, List.mem_cons, List.mem_singleton, List.not_mem_nil, or_false,
      not_or] at hh
    simp only [step, Handle.moveCtor] at hs
    split at hs
    · exact Option.noConfusion hs
    · cases hsa : s.obj a with
      | none => simp [hsa] at hs
      | some pa =>
        simp only [hsa, Option.bind_eq_bind, Option.some_bind, Option.some.injEq] at hs
        subst hs
        simp [hh.1, hh.2]
  | moveAssign b a =>
    simp only [Op.handles, List.mem_cons, List.mem_singleton, List.not_mem_nil, or_false,
      not_or] at hh
    simp only [step, Handle.moveAssign] at hs
    cases hsb : s.obj b with
    | none => simp [hsb] at hs
    | some pb =>
      cases hsa : s.obj a with
      | none => simp [hsb, hsa] at hs
      | some pa =>
        simp only [hsb, hsa, delete_obj, Option.bind_eq_bind, Option.some_bind,
          Option.some.injEq] at hs
        subst hs
        simp [hh.1, hh.2]
  | destruct b =>
    simp only [Op.handles, List.mem_singleton] at hh
    simp only [step, Handle.dtor] at hs
    cases hsb : s.obj b with
    | none => simp [hsb] at hs
    | some pb =>
      simp only [hsb, Option.bind_eq_bind, Option.some_bind, Option.some.injEq] at hs
      subst hs
      simp [hh]

/-- Frame property for a sequence of operations. -/
theorem run_frame (ops : List Op) (s s' : State) (h : Nat)
    (hh : ∀ op ∈ ops, h ∉ op.handles) (hs : run ops s = some s') :
    s'.obj h = s.obj h := by
  induction ops generalizing s with
  | nil =>
    simp only [run, Option.some.injEq] at hs
    rw [hs]
  | cons op rest ih =>
    simp only [run] at hs
    cases hst : step op s with
    | none => simp [hst] at hs
    | some t =>
      simp only [hst, Option.some_bind] at hs
      rw [ih t (fun o ho => hh o (List.mem_cons_of_mem _ ho)) hs]
      exact step_frame op s t h (hh op (List.mem_cons_self _ _)) hst

/-- C7: the destructor of a live handle that owns nothing succeeds, deallocates
nothing (the log is unchanged), only ends the lifetime of that handle, and leaves
every other handle, hence the set of owned instances, unchanged. -/
theorem dtor_empty_noop (s : State) (h : Nat) (he : isEmpty s h) :
    ∃ s', Handle.dtor h s = some s' ∧
      s'.released = s.released ∧
      s'.obj h = none ∧
      (∀ k, k ≠ h → s'.obj k = s.obj k) ∧
      (∀ x, (∃ k, owns s' k x) ↔ (∃ k, owns s k x)) := by
  refine ⟨_, dtor_eq h none s he, ?_, ?_, ?_, ?_⟩
  · simp
  · simp
  · intro k hk
    simp [hk]
  · intro x
    constructor
    · rintro ⟨k, hk⟩
      refine ⟨k, ?_⟩
      simp only [owns, endLife_obj, delete_obj] at hk
      split at hk
      · exact Option.noConfusion hk
      · exact hk
    · rintro ⟨k, hk⟩
      refine ⟨k, ?_⟩
      have hkh : k ≠ h := by
        rintro rfl
        simp only [owns, isEmpty] at hk he
        rw [he] at hk
        simp at hk
      simpa [owns, hkh] using hk

theorem dtor_empty_noop_witness :
    ∃ s', Handle.dtor 2 demo = some s' ∧
      s'.released = demo.released ∧
      s'.obj 2 = none ∧
      (∀ k, k ≠ 2 → s'.obj k = demo.obj k) ∧
      (∀ x, (∃ k, owns s' k x) ↔ (∃ k, owns demo k x)) :=
  dtor_empty_noop demo 2 rfl

/-- C10: move assignment of a live handle to itself succeeds.  If the handle owned
an instance `x`, then `x` is deallocated by the assignment and the handle is empty
afterwards (it no longer owns `x`); if the handle was empty the state is unchanged. -/
theorem moveAssign_self_empties (s : State) (h : Nat) :
    (∀ x, owns s h x →
      ∃ s', Handle.moveAssign h h s = some s' ∧ isEmpty s' h ∧ ¬ owns s' h x ∧
        s'.released = s.released ++ [x] ∧ ∀ k, k ≠ h → s'.obj k = s.obj k) ∧
    (isEmpty s h → Handle.moveAssign h h s = some s) := by
  constructor
  · intro x hx
    refine ⟨_, moveAssign_eq h h (some x) (some x) s hx hx, ?_, ?_, ?_, ?_⟩
    · simp [isEmpty]
    · simp [owns]
    · simp
    · intro k hk
      simp [hk]
  · intro he
    rw [moveAssign_eq h h none none s he he]
    congr 1
    apply State.ext_iff_fields
    · intro k
      by_cases hk : k = h
      · subst hk
        simpa [isEmpty] using he.symm
      · simp [hk]
    · simp

theorem moveAssign_self_empties_witness :
    (∀ x, owns demo 0 x →
      ∃ s', Handle.moveAssign 0 0 demo = some s' ∧ isEmpty s' 0 ∧ ¬ owns s' 0 x ∧
        s'.released = demo.released ++ [x] ∧ ∀ k, k ≠ 0 → s'.obj k = demo.obj k) ∧
    owns demo 0 4 ∧
    (isEmpty demo 2 → Handle.moveAssign 2 2 demo = some demo) ∧ isEmpty demo 2 :=
  ⟨(moveAssign_self_empties demo 0).1, rfl, (moveAssign_self_empties demo 2).2, rfl⟩

/-- C6: move assignment of a live handle `h` to itself succeeds, leaves `h` empty
and deallocates exactly what `h` held (nothing when `h` was empty).  Destroying
`h` afterwards, directly or after any operations on other handles, succeeds and
deallocates nothing; so the assignment and the destruction together deallocate the
instance of `h` once, and the log has no repetition if it had none before and the
instance had not been deallocated yet. -/
theorem moveAssign_self_then_dtor (s : State) (h : Nat) (p : Ptr)
    (hl : s.obj h = some p) :
    ∃ s1, Handle.moveAssign h h s = some s1 ∧ isEmpty s1 h ∧
      s1.released = s.released ++ p.toList ∧
      (p = none → s1.released = s.released) ∧
      (∃ s2, Handle.dtor h s1 = some s2 ∧ s2.released = s.released ++ p.toList ∧
        (s.released.Nodup → (∀ x, p = some x → x ∉ s.released) → s2.released.Nodup)) ∧
      (∀ mid t, (∀ op ∈ mid, h ∉ op.handles) → run mid s1 = some t →
        ∃ u, Handle.dtor h t = some u ∧ u.released = t.released) := by
  have he : isEmpty (setP h none (setP h p (delete p s))) h := by simp [isEmpty]
  refine ⟨_, moveAssign_eq h h p p s hl hl, he, by simp, ?_, ?_, ?_⟩
  · rintro rfl
    simp
  · refine ⟨_, dtor_eq h none _ he, by simp, ?_⟩
    intro hnd hfresh
    cases p with
    | none => simpa using hnd
    | some x =>
      have hx := hfresh x rfl
      simp only [endLife_released, delete_released, setP_released, Option.toList_none,
        List.append_nil, Option.toList_some]
      exact List.Nodup.append hnd (List.nodup_singleton x) (by simpa using hx)
  · intro mid t hmid hrun
    have ht : t.obj h = some none := by
      rw [run_frame mid _ t h hmid hrun]
      exact he
    exact ⟨_, dtor_eq h none t ht, by simp⟩

theorem moveAssign_self_then_dtor_witness :
    ∃ s1, Handle.moveAssign 0 0 demo = some s1 ∧ isEmpty s1 0 ∧
      s1.released = demo.released ++ (some 4 : Ptr).toList ∧
      ((some 4 : Ptr) = none → s1.released = demo.released) ∧
      (∃ s2, Handle.dtor 0 s1 = some s2 ∧
        s2.released = demo.released ++ (some 4 : Ptr).toList ∧
        (demo.released.Nodup → (∀ x, (some 4 : Ptr) = some x → x ∉ demo.released) →
          s2.released.Nodup)) ∧
      (∀ mid t, (∀ op ∈ mid, 0 ∉ op.handles) → run mid s1 = some t →
        ∃ u, Handle.dtor 0 t = some u ∧ u.released = t.released) :=
  moveAssign_self_then_dtor demo 0 (some 4) rfl

/-- C8: from a state where `h1` and `h2` are two different handles not yet alive,
constructing `h1` on instance `x` and move-constructing `h2` from `h1` succeed and
deallocate nothing.  Destroying `h2` then `h1`, or `h1` then `h2`, succeeds; in both
orders the destruction of `h2` appends `x` to the log, the destruction of `h1`
leaves the log unchanged, and in total `x` is deallocated once. -/
theorem move_then_destroy (s : State) (h1 h2 x : Nat)
    (n1 : s.obj h1 = none) (n2 : s.obj h2 = none) (ne : h1 ≠ h2) :
    ∃ s1 s2, Handle.ctor h1 (some x) s = some s1 ∧ Handle.moveCtor h2 h1 s1 = some s2 ∧
      s2.released = s.released ∧ owns s2 h2 x ∧ isEmpty s2 h1 ∧
      (∃ t u, Handle.dtor h2 s2 = some t ∧ t.released = s2.released ++ [x] ∧
        Handle.dtor h1 t = some u ∧ u.released = t.released ∧
        u.released = s.released ++ [x]) ∧
      (∃ t u, Handle.dtor h1 s2 = some t ∧ t.released = s2.released ∧
        Handle.dtor h2 t = some u ∧ u.released = t.released ++ [x] ∧
        u.released = s.released ++ [x]) := by
  have e1 : (setP h1 (some x) s).obj h2 = none := by simp [ne.symm, n2]
  have e2 : (setP h1 (some x) s).obj h1 = some (some x) := by simp
  have o2 : (setP h1 none (setP h2 (some x) (setP h1 (some x) s))).obj h2 = some (some x) := by
    simp [ne.symm]
  have o1 : (setP h1 none (setP h2 (some x) (setP h1 (some x) s))).obj h1 = some none := by
    simp
  refine ⟨_, _, ctor_eq h1 (some x) s n1, moveCtor_eq h2 h1 (some x) _ e1 e2, by simp, o2, o1,
    ?_, ?_⟩
  · have o1' : (endLife h2 (delete (some x)
        (setP h1 none (setP h2 (some x) (setP h1 (some x) s))))).obj h1 = some none := by
      simp [ne]
    exact ⟨_, _, dtor_eq h2 (some x) _ o2, by simp, dtor_eq h1 none _ o1', by simp, by simp⟩
  · have o2' : (endLife h1 (delete none
        (setP h1 none (setP h2 (some x) (setP h1 (some x) s))))).obj h2 = some (some x) := by
      simp [ne.symm]
    exact ⟨_, _, dtor_eq h1 none _ o1, by simp, dtor_eq h2 (some x) _ o2', by simp, by simp⟩

theorem move_then_destroy_witness :
    ∃ s1 s2, Handle.ctor 3 (some 7) demo = some s1 ∧ Handle.moveCtor 4 3 s1 = some s2 ∧
      s2.released = demo.released ∧ owns s2 4 7 ∧ isEmpty s2 3 ∧
      (∃ t u, Handle.dtor 4 s2 = some t ∧ t.released = s2.released ++ [7] ∧
        Handle.dtor 3 t = some u ∧ u.released = t.released ∧
        u.released = demo.released ++ [7]) ∧
      (∃ t u, Handle.dtor 3 s2 = some t ∧ t.released = s2.released ∧
        Handle.dtor 4 t = some u ∧ u.released = t.released ++ [7] ∧
        u.released = demo.released ++ [7]) :=
  move_then_destroy demo 3 4 7 rfl rfl (by decide)

/-! ## Whole executions -/

theorem step_construct_inv (h : Nat) (pp : Ptr) (s s' : State)
    (hs : step (.construct h pp) s = some s') :
    s.obj h = none ∧ s' = setP h pp s := by
  simp only [step, Handle.ctor] at hs
  split at hs
  · exact Option.noConfusion hs
  · rename_i hn
    cases hs
    exact ⟨by simpa using hn, rfl⟩

theorem step_moveConstruct_inv (b a : Nat) (s s' : State)
    (hs : step (.moveConstruct b a) s = some s') :
    s.obj b = none ∧ ∃ pa, s.obj a = some pa ∧ s' = setP a none (setP b pa s) := by
  simp only [step, Handle.moveCtor] at hs
  split at hs
  · exact Option.noConfusion hs
  · rename_i hn
    cases hsa : s.obj a with
    | none => simp [hsa] at hs
    | some pa =>
      simp only [hsa, Option.bind_eq_bind, Option.some_bind, Option.some.injEq] at hs
      exact ⟨by simpa using hn, pa, rfl, hs.symm⟩

theorem step_moveAssign_inv (b a : Nat) (s s' : State)
    (hs : step (.moveAssign b a) s = some s') :
    ∃ pb pa, s.obj b = some pb ∧ s.obj a = some pa ∧
      s' = setP a none (setP b pa (delete pb s)) := by
  simp only [step, Handle.moveAssign] at hs
  cases hsb : s.obj b with
  | none => simp [hsb] at hs
  | some pb =>
    cases hsa : s.obj a with
    | none => simp [hsb, hsa] at hs
    | some pa =>
      simp only [hsb, hsa, delete_obj, Option.bind_eq_bind, Option.some_bind,
        Option.some.injEq] at hs
      exact ⟨pb, pa, rfl, rfl, hs.symm⟩

theorem step_destruct_inv (h : Nat) (s s' : State)
    (hs : step (.destruct h) s = some s') :
    ∃ p, s.obj h = some p ∧ s' = endLife h (delete p s) := by
  simp only [step, Handle.dtor] at hs
  cases hsb : s.obj h with
  | none => simp [hsb] at hs
  | some pb =>
    simp only [hsb, Option.bind_eq_bind, Option.some_bind, Option.some.injEq] at hs
    exact ⟨pb, rfl, hs.symm⟩

theorem constructed_cons (op : Op) (rest : List Op) :
    constructed (op :: rest) = constructed [op] ++ constructed rest := by
  cases op with
  | construct h pp => cases pp <;> simp [constructed]
  | moveConstruct b a => simp [constructed]
  | moveAssign b a => simp [constructed]
  | destruct h => simp [constructed]

theorem disciplined_empty : Disciplined State.empty [] where
  nodup := List.nodup_nil
  released_sub := by intro x hx; simp [State.empty] at hx
  owned_sub := by intro h x hx; simp [owns, State.empty] at hx
  excl := by intro h1 h2 x hx; simp [owns, State.empty] at hx
  accounted := by intro x hx; simp at hx

theorem owns_setP (h : Nat) (v : Ptr) (s : State) (k y : Nat) :
    owns (setP h v s) k y ↔ (k = h ∧ v = some y) ∨ (k ≠ h ∧ owns s k y) := by
  by_cases hk : k = h <;> simp [owns, hk]

theorem owns_endLife (h : Nat) (s : State) (k y : Nat) :
    owns (endLife h s) k y ↔ k ≠ h ∧ owns s k y := by
  by_cases hk : k = h <;> simp [owns, hk]

theorem owns_delete (p : Ptr) (s : State) (k y : Nat) :
    owns (delete p s) k y ↔ owns s k y := by
  simp [owns]

theorem owns_inj (s : State) (h x y : Nat) (hx : owns s h x) (hy : owns s h y) : x = y := by
  simp only [owns] at hx hy
  rw [hx] at hy
  simpa using hy

theorem disciplined_construct (s : State) (cs : List Nat) (h : Nat) (pp : Ptr)
    (d : Disciplined s cs) (hn : s.obj h = none) (hfresh : ∀ x, pp = some x → x ∉ cs) :
    Disciplined (setP h pp s) (cs ++ constructed [.construct h pp]) := by
  have hno : ∀ y, ¬ owns s h y := by
    intro y hy
    simp only [owns] at hy
    rw [hn] at hy
    exact Option.noConfusion hy
  cases pp with
  | none =>
    have ho : ∀ k y, owns (setP h none s) k y ↔ owns s k y := by
      intro k y
      rw [owns_setP]
      constructor
      · rintro (⟨-, hv⟩ | ⟨-, hk⟩)
        · exact Option.noConfusion hv
        · exact hk
      · intro hk
        refine Or.inr ⟨?_, hk⟩
        rintro rfl
        exact hno y hk
    simp only [constructed, List.append_nil]
    refine ⟨d.nodup, d.released_sub, ?_, ?_, ?_⟩
    · intro k y hk
      exact d.owned_sub k y ((ho k y).1 hk)
    · intro h1 h2 y a1 a2
      exact d.excl h1 h2 y ((ho _ _).1 a1) ((ho _ _).1 a2)
    · intro y hy
      rcases d.accounted y hy with hr | ⟨k, hk⟩
      · exact Or.inl hr
      · exact Or.inr ⟨k, (ho _ _).2 hk⟩
  | some x =>
    have hx : x ∉ cs := hfresh x rfl
    have hxr : x ∉ s.released := fun hr => hx (d.released_sub x hr)
    have hxo : ∀ k, ¬ owns s k x := fun k hk => hx (d.owned_sub k x hk).1
    simp only [constructed]
    refine ⟨d.nodup, ?_, ?_, ?_, ?_⟩
    · intro y hy
      exact List.mem_append_left _ (d.released_sub y hy)
    · intro k y hk
      rw [owns_setP] at hk
      rcases hk with ⟨-, hv⟩ | ⟨-, hk⟩
      · cases hv
        exact ⟨by simp, hxr⟩
      · exact ⟨List.mem_append_left _ (d.owned_sub k y hk).1, (d.owned_sub k y hk).2⟩
    · intro h1 h2 y a1 a2
      rw [owns_setP] at a1 a2
      rcases a1 with ⟨e1, v1⟩ | ⟨-, k1⟩ <;> rcases a2 with ⟨e2, v2⟩ | ⟨-, k2⟩
      · rw [e1, e2]
      · cases v1
        exact absurd k2 (hxo h2)
      · cases v2
        exact absurd k1 (hxo h1)
      · exact d.excl h1 h2 y k1 k2
    · intro y hy
      rcases List.mem_append.1 hy with hc | hc
      · rcases d.accounted y hc with hr | ⟨k, hk⟩
        · exact Or.inl hr
        · refine Or.inr ⟨k, (owns_setP _ _ _ _ _).2 (Or.inr ⟨?_, hk⟩)⟩
          rintro rfl
          exact hno y hk
      · simp only [List.mem_singleton] at hc
        subst hc
        exact Or.inr ⟨h, (owns_setP _ _ _ _ _).2 (Or.inl ⟨rfl, rfl⟩)⟩

theorem disciplined_destruct (s : State) (cs : List Nat) (h : Nat) (p : Ptr)
    (d : Disciplined s cs) (hl : s.obj h = some p) :
    Disciplined (endLife h (delete p s)) cs := by
  have ho : ∀ k y, owns (endLife h (delete p s)) k y ↔ k ≠ h ∧ owns s k y := by
    intro k y
    rw [owns_endLife, owns_delete]
  have hmem : ∀ y, y ∈ (endLife h (delete p s)).released ↔ y ∈ s.released ∨ p = some y := by
    intro y
    cases p <;> simp [eq_comm]
  refine ⟨?_, ?_, ?_, ?_, ?_⟩
  · cases p with
    | none => simpa using d.nodup
    | some x =>
      have hx : x ∉ s.released := (d.owned_sub h x hl).2
      simp only [endLife_released, delete_released, Option.toList_some]
      exact List.Nodup.append d.nodup (List.nodup_singleton x) (by simpa using hx)
  · intro y hy
    rcases (hmem y).1 hy with hr | hp
    · exact d.released_sub y hr
    · subst hp
      exact (d.owned_sub h y hl).1
  · intro k y hk'
    obtain ⟨hkh, hks⟩ := (ho k y).1 hk'
    refine ⟨(d.owned_sub k y hks).1, ?_⟩
    intro hy
    rcases (hmem y).1 hy with hr | hp
    · exact (d.owned_sub k y hks).2 hr
    · subst hp
      exact hkh (d.excl k h y hks hl)
  · intro h1 h2 y a1 a2
    exact d.excl h1 h2 y ((ho _ _).1 a1).2 ((ho _ _).1 a2).2
  · intro y hy
    rcases d.accounted y hy with hr | ⟨k, hk⟩
    · exact Or.inl ((hmem y).2 (Or.inl hr))
    · by_cases hkh : k = h
      · subst hkh
        refine Or.inl ((hmem y).2 (Or.inr ?_))
        simp only [owns] at hk
        rw [hl] at hk
        simpa using hk
      · exact Or.inr ⟨k, (ho _ _).2 ⟨hkh, hk⟩⟩

theorem disciplined_congr (s t : State) (cs : List Nat)
    (ho : ∀ k y, owns t k y ↔ owns s k y) (hr : t.released = s.released)
    (d : Disciplined s cs) : Disciplined t cs := by
  refine ⟨?_, ?_, ?_, ?_, ?_⟩
  · rw [hr]
    exact d.nodup
  · rw [hr]
    exact d.released_sub
  · intro k y hk
    rw [hr]
    exact d.owned_sub k y ((ho k y).1 hk)
  · intro h1 h2 y a1 a2
    exact d.excl h1 h2 y ((ho _ _).1 a1) ((ho _ _).1 a2)
  · intro y hy
    rw [hr]
    rcases d.accounted y hy with hrel | ⟨k, hk⟩
    · exact Or.inl hrel
    · exact Or.inr ⟨k, (ho _ _).2 hk⟩

/-- Releasing what a live handle holds and leaving it empty keeps the discipline. -/
theorem disciplined_release (s : State) (cs : List Nat) (h : Nat) (p : Ptr)
    (d : Disciplined s cs) (hl : s.obj h = some p) :
    Disciplined (setP h none (delete p s)) cs := by
  refine disciplined_congr (endLife h (delete p s)) _ cs ?_ rfl
    (disciplined_destruct s cs h p d hl)
  intro k y
  rw [owns_setP, owns_endLife]
  constructor
  · rintro (⟨-, hv⟩ | hk)
    · exact Option.noConfusion hv
    · exact hk
  · intro hk
    exact Or.inr hk

/-- Handing what the live handle `a` holds over to a different handle `b` that owns
nothing, and leaving `a` empty, keeps the discipline. -/
theorem disciplined_transfer (s : State) (cs : List Nat) (a b : Nat) (pa : Ptr)
    (d : Disciplined s cs) (ha : s.obj a = some pa) (hb : ∀ y, ¬ owns s b y)
    (hab : a ≠ b) :
    Disciplined (setP a none (setP b pa s)) cs := by
  have ho : ∀ k y, owns (setP a none (setP b pa s)) k y ↔
      k ≠ a ∧ ((k = b ∧ pa = some y) ∨ (k ≠ b ∧ owns s k y)) := by
    intro k y
    rw [owns_setP, owns_setP]
    constructor
    · rintro (⟨-, hv⟩ | hk)
      · exact Option.noConfusion hv
      · exact hk
    · intro hk
      exact Or.inr hk
  have hsa : ∀ y, pa = some y → owns s a y := by
    rintro y rfl
    exact ha
  refine ⟨d.nodup, d.released_sub, ?_, ?_, ?_⟩
  · intro k y hk
    rcases (ho k y).1 hk with ⟨-, ⟨-, hv⟩ | ⟨-, hks⟩⟩
    · exact d.owned_sub a y (hsa y hv)
    · exact d.owned_sub k y hks
  · intro h1 h2 y a1 a2
    rcases (ho _ _).1 a1 with ⟨n1, ⟨e1, v1⟩ | ⟨m1, k1⟩⟩ <;>
      rcases (ho _ _).1 a2 with ⟨n2, ⟨e2, v2⟩ | ⟨m2, k2⟩⟩
    · rw [e1, e2]
    · exact absurd (d.excl h2 a y k2 (hsa y v1)) n2
    · exact absurd (d.excl h1 a y k1 (hsa y v2)) n1
    · exact d.excl h1 h2 y k1 k2
  · intro y hy
    rcases d.accounted y hy with hrel | ⟨k, hk⟩
    · exact Or.inl hrel
    · by_cases hka : k = a
      · subst hka
        refine Or.inr ⟨b, (ho _ _).2 ⟨hab.symm, Or.inl ⟨rfl, ?_⟩⟩⟩
        simp only [owns] at hk
        rw [ha] at hk
        simpa using hk
      · have hkb : k ≠ b := by
          rintro rfl
          exact hb y hk
        exact Or.inr ⟨k, (ho _ _).2 ⟨hka, Or.inr ⟨hkb, hk⟩⟩⟩

theorem disciplined_moveCtor (s : State) (cs : List Nat) (a b : Nat) (pa : Ptr)
    (d : Disciplined s cs) (ha : s.obj a = some pa) (hb : s.obj b = none) :
    Disciplined (setP a none (setP b pa s)) cs := by
  refine disciplined_transfer s cs a b pa d ha ?_ ?_
  · intro y hy
    simp only [owns] at hy
    rw [hb] at hy
    exact Option.noConfusion hy
  · rintro rfl
    rw [ha] at hb
    exact Option.noConfusion hb

theorem disciplined_moveAssign (s : State) (cs : List Nat) (a b : Nat) (pa pb : Ptr)
    (d : Disciplined s cs) (ha : s.obj a = some pa) (hb : s.obj b = some pb) :
    Disciplined (setP a none (setP b pa (delete pb s))) cs := by
  by_cases hab : a = b
  · subst hab
    refine disciplined_congr (setP a none (delete pb s)) _ cs ?_ rfl
      (disciplined_release s cs a pb d hb)
    intro k y
    by_cases hk : k = a <;> simp [owns, hk]
  · have d1 := disciplined_release s cs b pb d hb
    have ha1 : (setP b none (delete pb s)).obj a = some pa := by simp [hab, ha]
    have hb1 : ∀ y, ¬ owns (setP b none (delete pb s)) b y := by
      intro y
      simp [owns]
    refine disciplined_congr (setP a none (setP b pa (setP b none (delete pb s)))) _ cs ?_ rfl
      (disciplined_transfer (setP b none (delete pb s)) cs a b pa d1 ha1 hb1 hab)
    intro k y
    by_cases hk : k = a <;> by_cases hk2 : k = b <;> simp [owns, hk, hk2]

theorem disciplined_step (op : Op) (s s' : State) (cs : List Nat)
    (d : Disciplined s cs) (hfresh : ∀ x ∈ constructed [op], x ∉ cs)
    (hs : step op s = some s') :
    Disciplined s' (cs ++ constructed [op]) := by
  cases op with
  | construct h pp =>
    obtain ⟨hn, rfl⟩ := step_construct_inv h pp s s' hs
    refine disciplined_construct s cs h pp d hn ?_
    rintro x rfl
    exact hfresh x (by simp [constructed])
  | moveConstruct b a =>
    obtain ⟨hn, pa, ha, rfl⟩ := step_moveConstruct_inv b a s s' hs
    simpa [constructed] using disciplined_moveCtor s cs a b pa d ha hn
  | moveAssign b a =>
    obtain ⟨pb, pa, hb, ha, rfl⟩ := step_moveAssign_inv b a s s' hs
    simpa [constructed] using disciplined_moveAssign s cs a b pa pb d ha hb
  | destruct h =>
    obtain ⟨p, hl, rfl⟩ := step_destruct_inv h s s' hs
    simpa [constructed] using disciplined_destruct s cs h p d hl

theorem disciplined_run (ops : List Op) (s s' : State) (cs : List Nat)
    (d : Disciplined s cs) (hfresh : (cs ++ constructed ops).Nodup)
    (hs : run ops s = some s') :
    Disciplined s' (cs ++ constructed ops) := by
  induction ops generalizing s cs with
  | nil =>
    simp only [run, Option.some.injEq] at hs
    subst hs
    simpa [constructed] using d
  | cons op rest ih =>
    simp only [run] at hs
    cases hst : step op s with
    | none => simp [hst] at hs
    | some t =>
      simp only [hst, Option.some_bind] at hs
      rw [constructed_cons, ← List.append_assoc] at hfresh ⊢
      have hdis : ∀ x ∈ constructed [op], x ∉ cs := by
        intro x hx hc
        have h1 := (List.nodup_append.1 hfresh).1
        exact (List.nodup_append.1 h1).2.2 hc hx
      exact ih t (cs ++ constructed [op]) (disciplined_step op s t cs d hdis hst) hfresh hs

/-- Discipline of every state reached from the empty state when no instance is
handed to the constructor twice. -/
theorem disciplined_reachable (ops : List Op) (s : State)
    (hfresh : (constructed ops).Nodup) (hs : run ops State.empty = some s) :
    Disciplined s (constructed ops) := by
  simpa using disciplined_run ops State.empty s [] disciplined_empty (by simpa using hfresh) hs

/-- C3, as stated, fails: handing the same instance to the constructor twice gives a
reachable state in which two different live handles own that instance. -/
theorem exclusive_fails_for_shared_instance :
    ∃ s, run [.construct 0 (some 7), .construct 1 (some 7)] State.empty = some s ∧
      owns s 0 7 ∧ owns s 1 7 ∧ ¬ Exclusive s :=
  ⟨_, rfl, rfl, rfl, fun h => absurd (h 0 1 7 rfl rfl) (by decide)⟩

/-- C3 (amended): in every state reached from the empty state by a sequence of
constructions, move constructions, move assignments and destructions in which no
instance is handed to the constructor more than once, no two live handles own the
same instance, and a live handle owns at most one instance. -/
theorem exclusive_when_instances_fresh (ops : List Op) (s : State)
    (hfresh : (constructed ops).Nodup) (hs : run ops State.empty = some s) :
    Exclusive s ∧ ∀ h x y, owns s h x → owns s h y → x = y :=
  ⟨(disciplined_reachable ops s hfresh hs).excl, fun h x y hx hy => owns_inj s h x y hx hy⟩

theorem exclusive_when_instances_fresh_witness :
    (constructed demoOps2).Nodup ∧ run demoOps2 State.empty = some demoMid ∧
      owns demoMid 1 7 ∧
      (Exclusive demoMid ∧ ∀ h x y, owns demoMid h x → owns demoMid h y → x = y) :=
  ⟨by decide, rfl, rfl, exclusive_when_instances_fresh demoOps2 demoMid (by decide) rfl⟩

/-- For an element type without member handles: when no instance is handed to the
constructor more than once, every state reached from the empty state by
constructions, move constructions, move assignments (self assignment included) and
destructions has a deallocation log without repetition, holding only instances that
were handed to the constructor; and if no handle is live any more, each instance
handed to the constructor is in the log exactly once. -/
theorem no_double_free (ops : List Op) (s : State)
    (hfresh : (constructed ops).Nodup) (hs : run ops State.empty = some s) :
    s.released.Nodup ∧ (∀ x, s.released.count x ≤ 1) ∧
      (∀ x ∈ s.released, x ∈ constructed ops) ∧
      ((∀ h, s.obj h = none) → ∀ x ∈ constructed ops, s.released.count x = 1) := by
  have d := disciplined_reachable ops s hfresh hs
  refine ⟨d.nodup, fun x => List.nodup_iff_count_le_one.1 d.nodup x, d.released_sub, ?_⟩
  intro hdead x hx
  rcases d.accounted x hx with hr | ⟨k, hk⟩
  · exact List.count_eq_one_of_mem d.nodup hr
  · simp only [owns] at hk
    rw [hdead k] at hk
    exact Option.noConfusion hk

theorem no_double_free_witness :
    (constructed demoOps).Nodup ∧ run demoOps State.empty = some demoFinal ∧
      (∀ h, demoFinal.obj h = none) ∧ constructed demoOps = [7, 8] ∧
      (demoFinal.released.Nodup ∧ (∀ x, demoFinal.released.count x ≤ 1) ∧
        (∀ x ∈ demoFinal.released, x ∈ constructed demoOps) ∧
        ((∀ h, demoFinal.obj h = none) →
          ∀ x ∈ constructed demoOps, demoFinal.released.count x = 1)) := by
  refine ⟨by decide, rfl, ?_, rfl, no_double_free demoOps demoFinal (by decide) rfl⟩
  intro h
  show (if h = 2 then none else if h = 1 then none else if h = 0 then none else _) = none
  split
  · rfl
  · split
    · rfl
    · split
      · rfl
      · rename_i h2 h1 h0
        simp [h2, h1, h0, State.empty]

/-! ## Constructing and destroying a batch of handles -/

theorem run_append (xs ys : List Op) (s : State) :
    run (xs ++ ys) s = (run xs s).bind (run ys) := by
  induction xs generalizing s with
  | nil => simp [run]
  | cons op rest ih =>
    simp only [List.cons_append, run]
    cases step op s with
    | none => simp
    | some t => simp [ih]

theorem run_constructAll (hxs : List (Nat × Nat)) (s : State)
    (hnd : (hxs.map Prod.fst).Nodup) (hnew : ∀ hx ∈ hxs, s.obj hx.1 = none) :
    ∃ t, run (constructAll hxs) s = some t ∧ t.released = s.released ∧
      (∀ hx ∈ hxs, t.obj hx.1 = some (some hx.2)) ∧
      (∀ k, k ∉ hxs.map Prod.fst → t.obj k = s.obj k) := by
  induction hxs generalizing s with
  | nil => exact ⟨s, rfl, rfl, by simp, by simp⟩
  | cons hx rest ih =>
    obtain ⟨h, x⟩ := hx
    simp only [List.map_cons, List.nodup_cons] at hnd
    have hn : s.obj h = none := hnew (h, x) (List.mem_cons_self _ _)
    have hne : ∀ p ∈ rest, p.1 ≠ h := by
      intro p hp e
      exact hnd.1 (e ▸ List.mem_map_of_mem Prod.fst hp)
    have hnew1 : ∀ p ∈ rest, (setP h (some x) s).obj p.1 = none := by
      intro p hp
      simp [hne p hp, hnew p (List.mem_cons_of_mem _ hp)]
    obtain ⟨t, ht, hrel, hown, hframe⟩ := ih (setP h (some x) s) hnd.2 hnew1
    refine ⟨t, ?_, by simpa using hrel, ?_, ?_⟩
    · simp only [constructAll, List.map_cons, run, step]
      rw [ctor_eq h (some x) s hn]
      exact ht
    · intro p hp
      rcases List.mem_cons.1 hp with rfl | hp
      · rw [hframe h hnd.1]
        simp
      · exact hown p hp
    · intro k hk
      simp only [List.map_cons, List.mem_cons, not_or] at hk
      rw [hframe k hk.2]
      simp [hk.1]

theorem run_destructAll (dxs : List (Nat × Nat)) (s : State)
    (hnd : (dxs.map Prod.fst).Nodup) (hown : ∀ hx ∈ dxs, s.obj hx.1 = some (some hx.2)) :
    ∃ u, run (destructAll (dxs.map Prod.fst)) s = some u ∧
      u.released = s.released ++ dxs.map Prod.snd ∧
      (∀ k, u.obj k = if k ∈ dxs.map Prod.fst then none else s.obj k) := by
  induction dxs generalizing s with
  | nil => exact ⟨s, rfl, by simp, by simp⟩
  | cons hx rest ih =>
    obtain ⟨h, x⟩ := hx
    simp only [List.map_cons, List.nodup_cons] at hnd
    have hl : s.obj h = some (some x) := hown (h, x) (List.mem_cons_self _ _)
    have hne : ∀ p ∈ rest, p.1 ≠ h := by
      intro p hp e
      exact hnd.1 (e ▸ List.mem_map_of_mem Prod.fst hp)
    have hown1 : ∀ p ∈ rest, (endLife h (delete (some x) s)).obj p.1 = some (some p.2) := by
      intro p hp
      simp [hne p hp, hown p (List.mem_cons_of_mem _ hp)]
    obtain ⟨u, hu, hrel, hobj⟩ := ih (endLife h (delete (some x) s)) hnd.2 hown1
    refine ⟨u, ?_, by simpa using hrel, ?_⟩
    · simp only [destructAll, List.map_cons, run, step]
      rw [dtor_eq h (some x) s hl]
      exact hu
    · intro k
      rw [hobj k]
      by_cases hk : k = h
      · subst hk
        simp
      · simp only [endLife_obj, delete_obj, if_neg hk, List.map_cons, List.mem_cons, hk,
          false_or, if_false]

/-- C5: from a state in which the handles of the pairs `hxs` are not live, with
pairwise different handles and pairwise different instances, constructing one
handle per instance and then destroying all those handles, in any order, succeeds
and appends to the log a list `rel` of deallocations of the same length as `hxs`
that holds each of the instances exactly once and nothing else; the handles are
dead again afterwards. -/
theorem construct_then_destroy_all (s : State) (hxs dxs : List (Nat × Nat))
    (hnd : (hxs.map Prod.fst).Nodup) (hinst : (hxs.map Prod.snd).Nodup)
    (hnew : ∀ hx ∈ hxs, s.obj hx.1 = none) (hperm : dxs.Perm hxs) :
    ∃ t u, run (constructAll hxs) s = some t ∧ t.released = s.released ∧
      run (destructAll (dxs.map Prod.fst)) t = some u ∧
      run (constructAll hxs ++ destructAll (dxs.map Prod.fst)) s = some u ∧
      (∀ k, u.obj k = s.obj k) ∧
      ∃ rel, u.released = s.released ++ rel ∧ rel.length = hxs.length ∧
        (∀ x ∈ hxs.map Prod.snd, rel.count x = 1) ∧
        (∀ x, x ∉ hxs.map Prod.snd → rel.count x = 0) := by
  obtain ⟨t, ht, hrel, hown, hframe⟩ := run_constructAll hxs s hnd hnew
  have hnd' : (dxs.map Prod.fst).Nodup := ((hperm.map Prod.fst).nodup_iff).2 hnd
  have hown' : ∀ hx ∈ dxs, t.obj hx.1 = some (some hx.2) :=
    fun hx hm => hown hx (hperm.mem_iff.1 hm)
  obtain ⟨u, hu, hrel', hobj⟩ := run_destructAll dxs t hnd' hown'
  have hp : (dxs.map Prod.snd).Perm (hxs.map Prod.snd) := hperm.map Prod.snd
  refine ⟨t, u, ht, hrel, hu, ?_, ?_, dxs.map Prod.snd, ?_, ?_, ?_, ?_⟩
  · rw [run_append, ht]
    exact hu
  · intro k
    rw [hobj k]
    by_cases hk : k ∈ dxs.map Prod.fst
    · rw [if_pos hk]
      obtain ⟨p, hpm, rfl⟩ := List.mem_map.1 hk
      exact (hnew p (hperm.mem_iff.1 hpm)).symm
    · rw [if_neg hk]
      exact hframe k (fun hm => hk ((hperm.map Prod.fst).mem_iff.2 hm))
  · rw [hrel', hrel]
  · rw [List.length_map]
    exact hperm.length_eq
  · intro x hx
    rw [hp.count_eq]
    exact List.count_eq_one_of_mem hinst hx
  · intro x hx
    rw [hp.count_eq]
    exact List.count_eq_zero_of_not_mem hx

theorem construct_then_destroy_all_witness :
    ∃ t u, run (constructAll [(3, 10), (4, 11), (5, 12)]) demo = some t ∧
      t.released = demo.released ∧
      run (destructAll ([(5, 12), (3, 10), (4, 11)].map Prod.fst)) t = some u ∧
      run (constructAll [(3, 10), (4, 11), (5, 12)] ++
        destructAll ([(5, 12), (3, 10), (4, 11)].map Prod.fst)) demo = some u ∧
      (∀ k, u.obj k = demo.obj k) ∧
      ∃ rel, u.released = demo.released ++ rel ∧
        rel.length = [(3, 10), (4, 11), (5, 12)].length ∧
        (∀ x ∈ [(3, 10), (4, 11), (5, 12)].map Prod.snd, rel.count x = 1) ∧
        (∀ x, x ∉ [(3, 10), (4, 11), (5, 12)].map Prod.snd → rel.count x = 0) :=
  construct_then_destroy_all demo [(3, 10), (4, 11), (5, 12)] [(5, 12), (3, 10), (4, 11)]
    (by decide) (by decide) (by decide) (by decide)

/-! ## Element types that hold handles -/

namespace Nested

theorem deleteT_opaque_eq (members : Nat → List Nat) (hm : ∀ x, members x = [])
    (fuel : Nat) (p : Ptr) (m : Machine) :
    deleteT members (fuel + 1) p m = some ⟨m.cell, m.live, m.released ++ p.toList⟩ := by
  cases p with
  | none => simp [deleteT]
  | some x => simp [deleteT, hm x, free]

theorem deleteT_opaque (members : Nat → List Nat) (hm : ∀ x, members x = [])
    (fuel : Nat) (p : Ptr) (m : Machine) :
    (deleteT members (fuel + 1) p m).map view = some (delete p (view m)) := by
  rw [deleteT_opaque_eq members hm]
  cases p <;> simp [delete, view]

theorem view_ctor (this : Nat) (pp : Ptr) (m : Machine) :
    (ctor this pp m).map view = Handle.ctor this pp (view m) := by
  by_cases hl : m.live this
  · simp [ctor, Handle.ctor, view, hl]
  · simp only [ctor, Handle.ctor, view, hl, Bool.false_eq_true, if_false, Option.map_some',
      Option.isSome_none, Option.some.injEq]
    apply State.ext_iff_fields
    · intro k
      by_cases hk : k = this <;> simp [setLive, store, setP, hk]
    · rfl

theorem view_dtor (members : Nat → List Nat) (hm : ∀ x, members x = [])
    (fuel : Nat) (this : Nat) (m : Machine) :
    (dtor members (fuel + 1) this m).map view = Handle.dtor this (view m) := by
  by_cases hl : m.live this
  · simp only [dtor, hl, if_true, deleteT_opaque_eq members hm, Option.map_some',
      Handle.dtor, view, Option.bind_eq_bind, Option.some_bind, Option.some.injEq]
    apply State.ext_iff_fields
    · intro k
      by_cases hk : k = this <;> simp [setLive, hk]
    · simp [setLive]
  · simp [dtor, Handle.dtor, view, hl]

theorem view_moveCtor (this h : Nat) (m : Machine) :
    (moveCtor this h m).map view = Handle.moveCtor this h (view m) := by
  by_cases hl : m.live this
  · simp [moveCtor, Handle.moveCtor, view, hl]
  · by_cases hh : m.live h
    · have hne : h ≠ this := by
        rintro rfl
        exact hl hh
      simp only [moveCtor, Handle.moveCtor, view, hl, hh, Bool.false_eq_true, if_false,
        if_true, Bool.not_true, Bool.or_self, Option.map_some', Option.isSome_none,
        Option.bind_eq_bind, Option.some_bind, Option.some.injEq]
      apply State.ext_iff_fields
      · intro k
        by_cases hk : k = h
        · subst hk
          simp [setLive, store, setP, hh, hne]
        · by_cases hk2 : k = this
          · subst hk2
            simp [setLive, store, setP, hk, hh]
          · simp [setLive, store, setP, hk, hk2]
      · rfl
    · simp [moveCtor, Handle.moveCtor, view, hl, hh]

theorem view_moveAssign (members : Nat → List Nat) (hm : ∀ x, members x = [])
    (fuel : Nat) (this h : Nat) (m : Machine) :
    (moveAssign members (fuel + 1) this h m).map view = Handle.moveAssign this h (view m) := by
  by_cases hl : m.live this
  · by_cases hh : m.live h
    · simp only [moveAssign, hl, hh, Bool.and_self, if_true, deleteT_opaque_eq members hm,
        Option.bind_eq_bind, Option.some_bind, Option.map_some', Handle.moveAssign, view,
        delete_obj, Option.some.injEq]
      apply State.ext_iff_fields
      · intro k
        by_cases hk : k = h
        · subst hk
          simp [store, setP, hh]
        · by_cases hk2 : k = this
          · subst hk2
            simp [store, setP, hk, hl]
          · simp [store, setP, hk, hk2]
      · simp [store]
    · simp [moveAssign, Handle.moveAssign, view, hl, hh]
  · simp [moveAssign, Handle.moveAssign, view, hl]

theorem view_step (members : Nat → List Nat) (hm : ∀ x, members x = [])
    (fuel : Nat) (op : Op) (m : Machine) :
    (step members (fuel + 1) op m).map view = FirstTry.step op (view m) := by
  cases op with
  | construct h pp => exact view_ctor h pp m
  | moveConstruct b a => exact view_moveCtor b a m
  | moveAssign b a => exact view_moveAssign members hm fuel b a m
  | destruct h => exact view_dtor members hm fuel h m

/-- For an element type without member handles, the machine shows exactly the
states of the first embedding, operation by operation. -/
theorem view_run (members : Nat → List Nat) (hm : ∀ x, members x = [])
    (fuel : Nat) (ops : List Op) (m : Machine) :
    (run members (fuel + 1) ops m).map view = FirstTry.run ops (view m) := by
  induction ops generalizing m with
  | nil => rfl
  | cons op rest ih =>
    simp only [run, FirstTry.run]
    rw [← view_step members hm fuel op m]
    cases step members (fuel + 1) op m with
    | none => rfl
    | some t => simpa using ih t

/-- C1: for `struct Node { Handle<Node> next; }` with `head` (handle 10) owning
node 1 and `n1->next` (handle 11) owning node 2, two different live handles, the
assignment `head = std::move(n1->next)` does not transfer cleanly: its first
statement `delete p` destroys node 1 and with it the source handle 11, whose
instance node 2 is deallocated before node 1; the assignment ends with the log
`[2, 1]`, the source no longer a live handle, and `head` holding the already
deallocated node 2. -/
theorem moveAssign_from_member_of_owned_instance :
    (10 : Nat) ≠ 11 ∧ nodeStart.live 10 = true ∧ nodeStart.live 11 = true ∧
      nodeStart.cell 10 = some 1 ∧ nodeStart.cell 11 = some 2 ∧ nodeStart.released = [] ∧
      (∃ m1, deleteT nodeMembers 3 (some 1) nodeStart = some m1 ∧
        m1.live 11 = false ∧ m1.released = [2, 1]) ∧
      ∃ m, moveAssign nodeMembers 3 10 11 nodeStart = some m ∧
        m.released = [2, 1] ∧ m.live 11 = false ∧ (view m).obj 11 = none ∧
        (view m).obj 10 = some (some 2) ∧ 2 ∈ m.released :=
  ⟨by decide, rfl, rfl, rfl, rfl, rfl, ⟨_, rfl, rfl, rfl⟩,
    ⟨_, rfl, rfl, rfl, rfl, rfl, by decide⟩⟩

/-- C4: for `struct Node { Handle<Node> next; }`, the program that constructs
`n2->next` empty, `n1->next` on node 2 and `head` on node 1 (no instance handed to
the constructor twice), runs `head = std::move(n1->next)` and then destroys `head`
deallocates node 2 twice: the log is `[2, 1, 2]`. -/
theorem double_free_after_moveAssign_from_member :
    (constructed nodeOps).Nodup ∧ constructed nodeOps = [2, 1] ∧
      ∃ m, run nodeMembers 3 nodeOps Machine.empty = some m ∧
        m.released = [2, 1, 2] ∧ m.released.count 2 = 2 ∧ ¬ m.released.Nodup ∧
        m.live 10 = false ∧ m.live 11 = false ∧ m.live 12 = false :=
  ⟨by decide, rfl, _, rfl, rfl, by decide, by decide, rfl, rfl, rfl⟩

end Nested

end FirstTry
